import Mathlib

/-!
Verification of the cbor_lite codec (src/ser.rs, src/de.rs).

The development shallowly embeds the Rust sources: bytes are `Nat`s
(masked mod 256 exactly where the source masks or casts), the byte
reader is explicit state passing over a `List Nat`, panics
(`unreachable!`, `unwrap`) are `Option.none`, and the recursive-descent
decoder carries a fuel argument (`from_bytes` supplies more fuel than
the input length, so fuel can never be the reason a parse of a
well-formed item fails).

Modules of the repository that are only referenced from src (the
`value`, `bytes`, `io` and `constants` modules, and the `Serialize`
implementation for `Value`) are modelled from the spec; each such
definition carries a doc comment saying so.
-/

namespace CborLite

/-- Modelled from the spec: the `Value` enum of the missing `value`
module (§3): Null, Int (u32), Bytes, String (held as its UTF-8 bytes,
so that Rust's lexicographic-by-byte `Ord` on `String` is literal),
Array, and Map (a `BTreeMap`, held as its sorted association list). -/
inductive Value where
  | null
  | int (n : Nat)
  | bytes (bs : List Nat)
  | str (s : List Nat)
  | array (vs : List Value)
  | map (m : List (List Nat × Value))

/-- Modelled from the spec: `Value::as_string`, used by
`deserialize_map` in de.rs — `Some` exactly on the String variant. -/
def Value.as_string : Value → Option (List Nat)
  | .str s => some s
  | _ => none

/-- Modelled from the spec: `bytes::major_type` — the top 3 bits of a
header byte (§4.1). -/
def major_type (b : Nat) : Nat := b % 256 / 32

/-- Modelled from the spec: `bytes::additional_type` — the bottom 5
bits of a header byte (§4.1). -/
def additional_type (b : Nat) : Nat := b % 32

/-- Modelled from the spec: `bytes::concat` — reassemble a header byte
from a 3-bit major type and a 5-bit additional-type value (§4.1, §4.3:
the header byte is the major type concatenated with the count). -/
def concat (mt n : Nat) : Nat := mt % 8 * 32 + n % 32

/-- Modelled from the spec: whether `b` is a UTF-8 continuation byte
(10xxxxxx). -/
def isCont (b : Nat) : Bool := 0x80 ≤ b && b ≤ 0xBF

/-- Modelled from the spec: UTF-8 validity of a byte sequence, as
checked by the missing `bytes::to_string` (§4.2 step 3: "validate and
convert as UTF-8 text"). Standard UTF-8: 1- to 4-byte sequences,
shortest form only, surrogates and code points above U+10FFFF
rejected. -/
def validUtf8 : List Nat → Bool
  | [] => true
  | b :: tl =>
    if b ≤ 0x7F then validUtf8 tl
    else
      match tl with
      | [] => false
      | b2 :: tl2 =>
        if 0xC2 ≤ b ∧ b ≤ 0xDF then isCont b2 && validUtf8 tl2
        else
          match tl2 with
          | [] => false
          | b3 :: tl3 =>
            if b = 0xE0 then (0xA0 ≤ b2 && b2 ≤ 0xBF) && isCont b3 && validUtf8 tl3
            else if (0xE1 ≤ b ∧ b ≤ 0xEC) ∨ b = 0xEE ∨ b = 0xEF then
              isCont b2 && isCont b3 && validUtf8 tl3
            else if b = 0xED then (0x80 ≤ b2 && b2 ≤ 0x9F) && isCont b3 && validUtf8 tl3
            else
              match tl3 with
              | [] => false
              | b4 :: tl4 =>
                if b = 0xF0 then
                  (0x90 ≤ b2 && b2 ≤ 0xBF) && isCont b3 && isCont b4 && validUtf8 tl4
                else if 0xF1 ≤ b ∧ b ≤ 0xF3 then
                  isCont b2 && isCont b3 && isCont b4 && validUtf8 tl4
                else if b = 0xF4 then
                  (0x80 ≤ b2 && b2 ≤ 0x8F) && isCont b3 && isCont b4 && validUtf8 tl4
                else false

/-- Modelled from the spec: `bytes::to_string` — convert bytes to the
String value, fatal (`none`) when the bytes are not valid UTF-8
(§4.2, §7 TextDecodeError). -/
def to_string (bs : List Nat) : Option Value :=
  if validUtf8 bs then some (.str bs) else none

/-- Modelled from the spec: `constants::MAX_U8`, the encoder's largest
encodable count/value (§4.3: n in 24..=255 uses the two-byte form,
n > 255 is unrepresentable). -/
def MAX_U8 : Nat := 255

/-- Modelled from the spec: `Reader::read_byte` over an in-memory
buffer (§6) — return and consume the next byte; running out is fatal. -/
def read_byte : List Nat → Option (Nat × List Nat)
  | [] => none
  | b :: tl => some (b, tl)

/-- Modelled from the spec: `Reader::read_n_bytes` (§6) — return and
consume the next `n` bytes as a block; running out is fatal. -/
def read_n_bytes (n : Nat) (bs : List Nat) : Option (List Nat × List Nat) :=
  if n ≤ bs.length then some (bs.take n, bs.drop n) else none

/-- de.rs `u8_slice_to_u16`: big-endian, each byte masked with 0xff
(`<< 8` and `|` on disjoint masked bytes written as `* 256` and `+`). -/
def u8_slice_to_u16 (s : List Nat) : Nat :=
  s.getD 0 0 % 256 * 256 + s.getD 1 0 % 256

/-- de.rs `u8_slice_to_u32`: big-endian, each byte masked with 0xff
(the shifts and `|` on disjoint masked bytes written with `*` and `+`). -/
def u8_slice_to_u32 (s : List Nat) : Nat :=
  s.getD 0 0 % 256 * 16777216 + s.getD 1 0 % 256 * 65536 +
    s.getD 2 0 % 256 * 256 + s.getD 3 0 % 256

/-- de.rs `read_u8`: one byte, as an Int value. -/
def read_u8 (bs : List Nat) : Option (Value × List Nat) :=
  (read_byte bs).map (fun p => (.int p.1, p.2))

/-- de.rs `read_u16`: two bytes, big-endian, as an Int value. -/
def read_u16 (bs : List Nat) : Option (Value × List Nat) :=
  (read_n_bytes 2 bs).map (fun p => (.int (u8_slice_to_u16 p.1), p.2))

/-- de.rs `read_u32`: four bytes, big-endian, as an Int value. -/
def read_u32 (bs : List Nat) : Option (Value × List Nat) :=
  (read_n_bytes 4 bs).map (fun p => (.int (u8_slice_to_u32 p.1), p.2))

/-- de.rs `deserialize_int`: additional-type 0..=23 is the value
itself; 24/25/26 read 1/2/4 follow-up bytes; anything else is
`unreachable!` (modelled as `none`). -/
def deserialize_int (ad : Nat) (bs : List Nat) : Option (Value × List Nat) :=
  if ad ≤ 23 then some (.int ad, bs)
  else if ad = 24 then read_u8 bs
  else if ad = 25 then read_u16 bs
  else if ad = 26 then read_u32 bs
  else none

/-- de.rs `read_additional_type` (dead code in the source: defined but
never called): resolves 0..=23 to itself and 24 to one follow-up byte,
anything else `unreachable!`. -/
def read_additional_type (ad : Nat) (bs : List Nat) : Option (Nat × List Nat) :=
  if ad ≤ 23 then some (ad, bs)
  else if ad = 24 then read_byte bs
  else none

/-- de.rs `deserialize_bytes`: read `len` bytes verbatim. Note the
argument `parse_value` passes here is the raw additional-type field. -/
def deserialize_bytes (len : Nat) (bs : List Nat) : Option (Value × List Nat) :=
  (read_n_bytes len bs).map (fun p => (.bytes p.1, p.2))

/-- de.rs `deserialize_string`: read `len` bytes and convert as UTF-8. -/
def deserialize_string (len : Nat) (bs : List Nat) : Option (Value × List Nat) :=
  (read_n_bytes len bs).bind (fun p => (to_string p.1).map (fun v => (v, p.2)))

/-- de.rs `deserialize_simple`: only simple-value code 22 (Null) is
accepted; anything else is `unreachable!` (modelled as `none`). -/
def deserialize_simple (v : Nat) (bs : List Nat) : Option (Value × List Nat) :=
  if v = 22 then some (.null, bs) else none

/-- Strict lexicographic byte order on keys: Rust's `Ord` on `String`
(lexicographic on UTF-8 bytes), which is the order `BTreeMap` keeps
its keys in. -/
def keyLtB : List Nat → List Nat → Bool
  | _, [] => false
  | [], _ :: _ => true
  | a :: as_, b :: bs => if a < b then true else if a = b then keyLtB as_ bs else false

/-- `BTreeMap::insert` on the sorted-association-list model of
`BTreeMap<String, Value>`: keep ascending key order, replace the value
when the key is already present. -/
def insertSorted (k : List Nat) (v : Value) :
    List (List Nat × Value) → List (List Nat × Value)
  | [] => [(k, v)]
  | (k1, v1) :: tl =>
    if keyLtB k k1 then (k, v) :: (k1, v1) :: tl
    else if k = k1 then (k, v) :: tl
    else (k1, v1) :: insertSorted k v tl

/-- de.rs `deserialize_array`'s iteration `(0..len).map(|_|
self.parse_value()).collect()`: run the parser `p` `n` times in
sequence, collecting the results in call order. -/
def parseMany (p : List Nat → Option (Value × List Nat)) :
    Nat → List Nat → Option (List Value × List Nat)
  | 0, bs => some ([], bs)
  | n + 1, bs =>
    (p bs).bind (fun x =>
      (parseMany p n x.2).map (fun y => (x.1 :: y.1, y.2)))

/-- de.rs `deserialize_array`: `len` recursive item parses collected
into an Array. -/
def deserialize_array (p : List Nat → Option (Value × List Nat))
    (len : Nat) (bs : List Nat) : Option (Value × List Nat) :=
  (parseMany p len bs).map (fun q => (.array q.1, q.2))

/-- The `for _ in 0..len` loop of de.rs `deserialize_map`, with the
growing `BTreeMap` as the accumulator: parse a key item, require it to
be a String (`as_string().unwrap()` — a non-String key is a fatal
panic, modelled as `none`), parse the value item, insert, repeat. -/
def deserialize_map_loop (p : List Nat → Option (Value × List Nat)) :
    Nat → List Nat → List (List Nat × Value) →
      Option (List (List Nat × Value) × List Nat)
  | 0, bs, acc => some (acc, bs)
  | n + 1, bs, acc =>
    (p bs).bind (fun kv =>
      match kv.1.as_string with
      | none => none
      | some k =>
        (p kv.2).bind (fun vv =>
          deserialize_map_loop p n vv.2 (insertSorted k vv.1 acc)))

/-- de.rs `deserialize_map`: run the pair loop from an empty
`BTreeMap`, wrap the result as a Map value. -/
def deserialize_map (p : List Nat → Option (Value × List Nat))
    (len : Nat) (bs : List Nat) : Option (Value × List Nat) :=
  (deserialize_map_loop p len bs []).map (fun q => (.map q.1, q.2))

/-- de.rs `parse_value`: read the header byte, split it into major
type and additional type, and dispatch. Note that for major types 2,
3, 4 and 5 the raw additional-type field is passed as the length or
count, and for 7 as the simple-value code; only `deserialize_int`
resolves the 24/25/26 follow-up-byte forms. The `_ => unreachable!()`
arm (major types 1 and 6) is `none`. Fuel makes the recursion
structural; `from_bytes` supplies strictly more fuel than there are
input bytes, and each nesting level consumes at least its header byte,
so fuel exhaustion is unreachable on any parse that the Rust code
completes. -/
def parse_value : Nat → List Nat → Option (Value × List Nat)
  | 0, _ => none
  | fuel + 1, input =>
    (read_byte input).bind (fun hp =>
      if major_type hp.1 = 0 then deserialize_int (additional_type hp.1) hp.2
      else if major_type hp.1 = 2 then deserialize_bytes (additional_type hp.1) hp.2
      else if major_type hp.1 = 3 then deserialize_string (additional_type hp.1) hp.2
      else if major_type hp.1 = 4 then
        deserialize_array (parse_value fuel) (additional_type hp.1) hp.2
      else if major_type hp.1 = 5 then
        deserialize_map (parse_value fuel) (additional_type hp.1) hp.2
      else if major_type hp.1 = 7 then deserialize_simple (additional_type hp.1) hp.2
      else none)

/-- de.rs `from_bytes`: parse exactly one top-level item from the
front of the buffer; trailing bytes are ignored. -/
def from_bytes (bytes : List Nat) : Option Value :=
  (parse_value (bytes.length + 1) bytes).map Prod.fst

/-- ser.rs `encode_unsigned`: minimal header form — one byte for n in
0..=23, two bytes (marker 24 then the value, cast to u8) for n in
24..=MAX_U8, and `unreachable!` (modelled as `none`) beyond that. -/
def encode_unsigned (n : Nat) (mt : Nat) : Option (List Nat) :=
  if n ≤ 23 then some [concat mt n]
  else if n ≤ MAX_U8 then some [concat mt 24, n % 256]
  else none

mutual
/-- The per-variant wire encoding of a `Value`. ser.rs gives the
`Serializer` capability (`serialize_unsigned` = `encode_unsigned`
written to the sink, `serialize_string` = string header then the UTF-8
bytes, `serialize_seq`/`serialize_map`/`serialize_simple` = headers
with major types 4/5/7); the `Serialize` impl for `Value` that drives
it is not under src and is modelled from the spec (§4.3): Null is
simple value 22; Int(v) is `encode_unsigned(v, 0)`; Bytes/String are
header then payload; Array is header then elements in order; Map is
header then key (as a String) and value per pair in ascending key
order — which is the stored order of the `BTreeMap` model. -/
def serializeValue : Value → Option (List Nat)
  | .null => encode_unsigned 22 7
  | .int n => encode_unsigned n 0
  | .bytes bs => (encode_unsigned bs.length 2).map (fun h => h ++ bs)
  | .str s => (encode_unsigned s.length 3).map (fun h => h ++ s)
  | .array vs =>
    (encode_unsigned vs.length 4).bind (fun h =>
      (serializeList vs).map (fun body => h ++ body))
  | .map m =>
    (encode_unsigned m.length 5).bind (fun h =>
      (serializePairs m).map (fun body => h ++ body))

/-- Wire encoding of array elements, in sequence order. -/
def serializeList : List Value → Option (List Nat)
  | [] => some []
  | v :: vs =>
    (serializeValue v).bind (fun e =>
      (serializeList vs).map (fun es => e ++ es))

/-- Wire encoding of map pairs in stored (ascending-key) order: each
key as a String item, then its value. -/
def serializePairs : List (List Nat × Value) → Option (List Nat)
  | [] => some []
  | (k, v) :: ps =>
    (encode_unsigned k.length 3).bind (fun kh =>
      (serializeValue v).bind (fun ve =>
        (serializePairs ps).map (fun es => kh ++ k ++ ve ++ es)))
end

/-- ser.rs `to_bytes`: serialize one value into a fresh output buffer.
`unreachable!` in `encode_unsigned` aborts the whole call (`none`). -/
def to_bytes (v : Value) : Option (List Nat) := serializeValue v

/-! Specification-side helpers used to state and prove the claims. -/

/-- The strict order on map entries: compare keys byte-lexicographically. -/
def keyOrder (p q : List Nat × Value) : Prop := keyLtB p.1 q.1 = true

/-- Boolean sortedness of a map's stored entry list: every key is
strictly below every later key (the `BTreeMap` invariant). -/
def sortedKeysB : List (List Nat × Value) → Bool
  | [] => true
  | p :: tl => (tl.all fun q => keyLtB p.1 q.1) && sortedKeysB tl

/-- Build a map by inserting the pairs of a list left to right into an
empty `BTreeMap`, the way a caller constructs a Map value. -/
def mapOfList (l : List (List Nat × Value)) : List (List Nat × Value) :=
  l.foldl (fun m kv => insertSorted kv.1 kv.2 m) []

/-- The key/value pairs of a map item in wire order: what the
`deserialize_map` loop reads, before the `BTreeMap` collapses
duplicate keys. Each iteration parses one key item (which must be a
String) and one value item. -/
def decodePairs (p : List Nat → Option (Value × List Nat)) :
    Nat → List Nat → Option (List (List Nat × Value) × List Nat)
  | 0, bs => some ([], bs)
  | n + 1, bs =>
    (p bs).bind (fun kv =>
      match kv.1.as_string with
      | none => none
      | some k =>
        (p kv.2).bind (fun vv =>
          (decodePairs p n vv.2).map (fun q => ((k, vv.1) :: q.1, q.2))))

/-- Lookup in the association-list model of `BTreeMap`. -/
def mapLookup (k : List Nat) : List (List Nat × Value) → Option Value
  | [] => none
  | (k1, v) :: tl => if k = k1 then some v else mapLookup k tl

/-- The value of the last pair with key `k` in a wire-order pair list. -/
def lastBinding (k : List Nat) : List (List Nat × Value) → Option Value
  | [] => none
  | q :: ps =>
    match lastBinding k ps with
    | some v => some v
    | none => if q.1 = k then some q.2 else none

mutual
/-- Representability for the amended round-trip: Int at most 255 (the
encoder's two-byte ceiling), every Bytes/String byte length and every
Array/Map count at most 23 (the immediate header form — the only one
the decoder reads back as a length), String payloads and Map keys
valid UTF-8, and Map entry lists with the `BTreeMap` sorted-key
invariant. -/
def representable : Value → Bool
  | .null => true
  | .int n => decide (n ≤ 255)
  | .bytes bs => decide (bs.length ≤ 23)
  | .str s => decide (s.length ≤ 23) && validUtf8 s
  | .array vs => decide (vs.length ≤ 23) && representableList vs
  | .map m => decide (m.length ≤ 23) && sortedKeysB m && representablePairs m

/-- Representability of every element of an array. -/
def representableList : List Value → Bool
  | [] => true
  | v :: vs => representable v && representableList vs

/-- Representability of every pair of a map: short valid-UTF-8 keys,
representable values. -/
def representablePairs : List (List Nat × Value) → Bool
  | [] => true
  | (k, v) :: ps =>
    decide (k.length ≤ 23) && validUtf8 k && representable v && representablePairs ps
end

/-! Order lemmas for the key comparison and the `BTreeMap` model. -/

theorem keyLtB_cons_lt {x y : Nat} (xs ys : List Nat) (h : x < y) :
    keyLtB (x :: xs) (y :: ys) = true := by
  simp [keyLtB, h]

theorem keyLtB_cons_self (x : Nat) (xs ys : List Nat) :
    keyLtB (x :: xs) (x :: ys) = keyLtB xs ys := by
  simp [keyLtB]

theorem keyLtB_cons_gt {x y : Nat} (xs ys : List Nat) (h : y < x) :
    keyLtB (x :: xs) (y :: ys) = false := by
  simp [keyLtB, show ¬ x < y by omega, show x ≠ y by omega]

theorem keyLtB_irrefl (a : List Nat) : keyLtB a a = false := by
  induction a with
  | nil => rfl
  | cons x xs ih => rw [keyLtB_cons_self, ih]

theorem keyLtB_trans :
    ∀ a b c : List Nat, keyLtB a b = true → keyLtB b c = true → keyLtB a c = true := by
  intro a
  induction a with
  | nil =>
    intro b c hab hbc
    cases b with
    | nil => exact hbc
    | cons y ys =>
      cases c with
      | nil => simp [keyLtB] at hbc
      | cons z zs => rfl
  | cons x xs ih =>
    intro b c hab hbc
    cases b with
    | nil => simp [keyLtB] at hab
    | cons y ys =>
      cases c with
      | nil => simp [keyLtB] at hbc
      | cons z zs =>
        rcases Nat.lt_trichotomy x y with h1 | h1 | h1
        · rcases Nat.lt_trichotomy y z with h2 | h2 | h2
          · exact keyLtB_cons_lt xs zs (by omega)
          · subst h2
            exact keyLtB_cons_lt xs zs h1
          · rw [keyLtB_cons_gt ys zs h2] at hbc
            exact absurd hbc Bool.false_ne_true
        · subst h1
          rw [keyLtB_cons_self] at hab
          rcases Nat.lt_trichotomy x z with h2 | h2 | h2
          · exact keyLtB_cons_lt xs zs h2
          · subst h2
            rw [keyLtB_cons_self] at hbc ⊢
            exact ih ys zs hab hbc
          · rw [keyLtB_cons_gt ys zs h2] at hbc
            exact absurd hbc Bool.false_ne_true
        · rw [keyLtB_cons_gt xs ys h1] at hab
          exact absurd hab Bool.false_ne_true

theorem keyLtB_asymm {a b : List Nat} (h : keyLtB a b = true) : keyLtB b a = false := by
  by_contra hc
  have h2 : keyLtB b a = true := by
    cases hv : keyLtB b a
    · exact absurd hv hc
    · rfl
  have h3 := keyLtB_trans a b a h h2
  rw [keyLtB_irrefl] at h3
  exact Bool.false_ne_true h3

theorem keyLtB_total :
    ∀ a b : List Nat, keyLtB a b = false → a ≠ b → keyLtB b a = true := by
  intro a
  induction a with
  | nil =>
    intro b hab hne
    cases b with
    | nil => exact absurd rfl hne
    | cons y ys => simp [keyLtB] at hab
  | cons x xs ih =>
    intro b hab hne
    cases b with
    | nil => rfl
    | cons y ys =>
      rcases Nat.lt_trichotomy x y with h1 | h1 | h1
      · rw [keyLtB_cons_lt xs ys h1] at hab
        simp at hab
      · subst h1
        rw [keyLtB_cons_self] at hab
        rw [keyLtB_cons_self]
        refine ih ys hab ?_
        intro hxs
        exact hne (by rw [hxs])
      · exact keyLtB_cons_lt ys xs h1

theorem mem_insertSorted {k : List Nat} {v : Value} :
    ∀ m q, q ∈ insertSorted k v m → q = (k, v) ∨ q ∈ m := by
  intro m
  induction m with
  | nil =>
    intro q hq
    simp [insertSorted] at hq
    exact Or.inl hq
  | cons p tl ih =>
    intro q hq
    obtain ⟨k1, v1⟩ := p
    simp only [insertSorted] at hq
    by_cases h1 : keyLtB k k1
    · rw [if_pos h1] at hq
      rcases List.mem_cons.mp hq with hq1 | hq1
      · exact Or.inl hq1
      · exact Or.inr hq1
    · rw [if_neg h1] at hq
      by_cases h2 : k = k1
      · rw [if_pos h2] at hq
        rcases List.mem_cons.mp hq with hq1 | hq1
        · exact Or.inl hq1
        · exact Or.inr (List.mem_cons_of_mem _ hq1)
      · rw [if_neg h2] at hq
        rcases List.mem_cons.mp hq with hq1 | hq1
        · exact Or.inr (by simp [hq1])
        · rcases ih q hq1 with h | h
          · exact Or.inl h
          · exact Or.inr (List.mem_cons_of_mem _ h)

theorem insertSorted_sorted {k : List Nat} {v : Value} :
    ∀ m, List.Pairwise keyOrder m → List.Pairwise keyOrder (insertSorted k v m) := by
  intro m
  induction m with
  | nil =>
    intro _
    simp [insertSorted]
  | cons p tl ih =>
    intro hs
    obtain ⟨k1, v1⟩ := p
    rw [List.pairwise_cons] at hs
    obtain ⟨h1, h2⟩ := hs
    simp only [insertSorted]
    by_cases hlt : keyLtB k k1
    · rw [if_pos hlt]
      refine List.Pairwise.cons ?_ (List.Pairwise.cons h1 h2)
      intro q hq
      rcases List.mem_cons.mp hq with hq1 | hq1
      · subst hq1
        exact hlt
      · exact keyLtB_trans k k1 q.1 hlt (h1 q hq1)
    · rw [if_neg hlt]
      by_cases heq : k = k1
      · rw [if_pos heq]
        refine List.Pairwise.cons ?_ h2
        intro q hq
        rw [heq]
        exact h1 q hq
      · rw [if_neg heq]
        refine List.Pairwise.cons ?_ (ih h2)
        intro q hq
        rcases mem_insertSorted tl q hq with h | h
        · subst h
          exact keyLtB_total k k1 (Bool.eq_false_iff.mpr hlt) heq
        · exact h1 q h

theorem insertSorted_perm {k : List Nat} {v : Value} :
    ∀ m, k ∉ m.map Prod.fst → List.Perm (insertSorted k v m) ((k, v) :: m) := by
  intro m
  induction m with
  | nil =>
    intro _
    exact List.Perm.refl _
  | cons p tl ih =>
    intro hk
    obtain ⟨k1, v1⟩ := p
    simp only [List.map_cons, List.mem_cons] at hk
    push_neg at hk
    obtain ⟨hk1, hk2⟩ := hk
    simp only [insertSorted]
    by_cases hlt : keyLtB k k1
    · rw [if_pos hlt]
    · rw [if_neg hlt, if_neg hk1]
      exact (List.Perm.cons _ (ih hk2)).trans (List.Perm.swap _ _ _)

theorem insertSorted_append {k : List Nat} {v : Value} :
    ∀ m, (∀ q ∈ m, keyLtB q.1 k = true) → insertSorted k v m = m ++ [(k, v)] := by
  intro m
  induction m with
  | nil =>
    intro _
    rfl
  | cons p tl ih =>
    intro hall
    obtain ⟨k1, v1⟩ := p
    have h1 : keyLtB k1 k = true := hall (k1, v1) (by simp)
    have h2 : keyLtB k k1 = false := keyLtB_asymm h1
    have h3 : k ≠ k1 := by
      intro he
      rw [he, keyLtB_irrefl] at h1
      exact Bool.false_ne_true h1
    simp only [insertSorted, h2, if_neg h3, Bool.false_eq_true, if_false]
    rw [ih fun q hq => hall q (List.mem_cons_of_mem _ hq)]
    rfl

theorem mapLookup_insertSorted {k : List Nat} {v : Value} :
    ∀ m j, mapLookup j (insertSorted k v m) = if j = k then some v else mapLookup j m := by
  intro m
  induction m with
  | nil =>
    intro j
    simp [insertSorted, mapLookup]
  | cons p tl ih =>
    intro j
    obtain ⟨k1, v1⟩ := p
    simp only [insertSorted]
    by_cases hlt : keyLtB k k1
    · rw [if_pos hlt]
      simp only [mapLookup]
    · rw [if_neg hlt]
      by_cases heq : k = k1
      · rw [if_pos heq]
        subst heq
        by_cases hj : j = k <;> simp [mapLookup, hj]
      · rw [if_neg heq]
        simp only [mapLookup]
        by_cases hj : j = k1
        · have hjk : j ≠ k := by
            rw [hj]
            exact fun h => heq h.symm
          have h2 : k1 ≠ k := fun h => heq h.symm
          simp [hj, hjk, h2]
        · simp [hj, ih j]

theorem length_insertSorted {k : List Nat} {v : Value} :
    ∀ m, (insertSorted k v m).length ≤ m.length + 1 := by
  intro m
  induction m with
  | nil => simp [insertSorted]
  | cons p tl ih =>
    obtain ⟨k1, v1⟩ := p
    simp only [insertSorted]
    by_cases hlt : keyLtB k k1
    · rw [if_pos hlt]
      simp
    · rw [if_neg hlt]
      by_cases heq : k = k1
      · rw [if_pos heq]
        simp
      · rw [if_neg heq]
        simpa using Nat.succ_le_succ ih

instance : IsAntisymm (List Nat × Value) keyOrder :=
  ⟨fun a b h1 h2 => by
    have h3 := keyLtB_asymm h1
    rw [h2] at h3
    simp at h3⟩

theorem sortedKeysB_iff_pairwise :
    ∀ m, sortedKeysB m = true ↔ List.Pairwise keyOrder m := by
  intro m
  induction m with
  | nil => simp [sortedKeysB]
  | cons p tl ih =>
    simp only [sortedKeysB, Bool.and_eq_true, List.all_eq_true, List.pairwise_cons]
    rw [ih]
    constructor
    · intro h
      exact ⟨fun q hq => h.1 q hq, h.2⟩
    · intro h
      exact ⟨fun q hq => h.1 q hq, h.2⟩

theorem foldl_insert_sorted :
    ∀ (l acc : List (List Nat × Value)), List.Pairwise keyOrder acc →
      List.Pairwise keyOrder (l.foldl (fun m kv => insertSorted kv.1 kv.2 m) acc) := by
  intro l
  induction l with
  | nil =>
    intro acc h
    exact h
  | cons p tl ih =>
    intro acc h
    exact ih _ (insertSorted_sorted acc h)

theorem foldl_insert_perm :
    ∀ (l acc : List (List Nat × Value)), (((acc ++ l).map Prod.fst).Nodup) →
      List.Perm (l.foldl (fun m kv => insertSorted kv.1 kv.2 m) acc) (acc ++ l) := by
  intro l
  induction l with
  | nil =>
    intro acc _
    simp
  | cons p tl ih =>
    intro acc hnd
    obtain ⟨k, v⟩ := p
    have hmid : List.Perm (acc ++ (k, v) :: tl) ((k, v) :: (acc ++ tl)) :=
      List.perm_middle
    have hnd2 : (((k, v) :: (acc ++ tl)).map Prod.fst).Nodup :=
      (hmid.map Prod.fst).nodup hnd
    rw [List.map_cons, List.nodup_cons] at hnd2
    obtain ⟨hknot, hnd3⟩ := hnd2
    have hkacc : k ∉ acc.map Prod.fst := by
      intro hmem
      apply hknot
      rw [List.map_append]
      exact List.mem_append.mpr (Or.inl hmem)
    have hp1 : List.Perm (insertSorted k v acc) ((k, v) :: acc) :=
      insertSorted_perm acc hkacc
    have hnd4 : (((insertSorted k v acc) ++ tl).map Prod.fst).Nodup := by
      have hperm : List.Perm ((insertSorted k v acc) ++ tl) (((k, v) :: acc) ++ tl) :=
        hp1.append_right tl
      refine ((hperm.map Prod.fst).nodup_iff).mpr ?_
      rw [List.cons_append, List.map_cons, List.nodup_cons]
      exact ⟨hknot, hnd3⟩
    have ihp := ih (insertSorted k v acc) hnd4
    refine ihp.trans ?_
    refine (hp1.append_right tl).trans ?_
    rw [List.cons_append]
    exact (List.Perm.cons _ (List.Perm.refl _)).trans hmid.symm

theorem mapOfList_sorted (l : List (List Nat × Value)) :
    List.Pairwise keyOrder (mapOfList l) :=
  foldl_insert_sorted l [] List.Pairwise.nil

theorem mapOfList_perm (l : List (List Nat × Value))
    (hnd : (l.map Prod.fst).Nodup) : List.Perm (mapOfList l) l :=
  foldl_insert_perm l [] (by simpa using hnd)

theorem mapOfList_eq_of_perm (l1 l2 : List (List Nat × Value))
    (hp : List.Perm l1 l2) (hnd : (l1.map Prod.fst).Nodup) :
    mapOfList l1 = mapOfList l2 := by
  have hnd2 : (l2.map Prod.fst).Nodup := ((hp.map Prod.fst).nodup_iff).mp hnd
  have p1 : List.Perm (mapOfList l1) (mapOfList l2) :=
    ((mapOfList_perm l1 hnd).trans hp).trans (mapOfList_perm l2 hnd2).symm
  exact List.eq_of_perm_of_sorted p1 (mapOfList_sorted l1) (mapOfList_sorted l2)

theorem foldl_insert_lookup :
    ∀ (ps acc : List (List Nat × Value)) (j : List Nat),
      mapLookup j (ps.foldl (fun m kv => insertSorted kv.1 kv.2 m) acc) =
        match lastBinding j ps with
        | some v => some v
        | none => mapLookup j acc := by
  intro ps
  induction ps with
  | nil =>
    intro acc j
    rfl
  | cons q ps ih =>
    intro acc j
    simp only [List.foldl_cons, lastBinding]
    rw [ih]
    cases hlb : lastBinding j ps with
    | some v => rfl
    | none =>
      rw [mapLookup_insertSorted]
      by_cases hj : j = q.1
      · simp [hj]
      · have h2 : q.1 ≠ j := fun h => hj h.symm
        simp [hj, h2]

theorem foldl_insert_length :
    ∀ (ps acc : List (List Nat × Value)),
      (ps.foldl (fun m kv => insertSorted kv.1 kv.2 m) acc).length ≤
        acc.length + ps.length := by
  intro ps
  induction ps with
  | nil =>
    intro acc
    simp
  | cons q ps ih =>
    intro acc
    simp only [List.foldl_cons, List.length_cons]
    calc (ps.foldl (fun m kv => insertSorted kv.1 kv.2 m) (insertSorted q.1 q.2 acc)).length
        ≤ (insertSorted q.1 q.2 acc).length + ps.length := ih _
      _ ≤ (acc.length + 1) + ps.length :=
          Nat.add_le_add_right (length_insertSorted acc) _
      _ = acc.length + (ps.length + 1) := by omega

/-! Lemmas about the decoder's map loop. -/

theorem deserialize_map_loop_sorted (p : List Nat → Option (Value × List Nat)) :
    ∀ n bs acc m r, List.Pairwise keyOrder acc →
      deserialize_map_loop p n bs acc = some (m, r) → List.Pairwise keyOrder m := by
  intro n
  induction n with
  | zero =>
    intro bs acc m r hs h
    simp only [deserialize_map_loop, Option.some.injEq, Prod.mk.injEq] at h
    rw [← h.1]
    exact hs
  | succ n ih =>
    intro bs acc m r hs h
    simp only [deserialize_map_loop] at h
    cases hp : p bs with
    | none =>
      rw [hp] at h
      simp at h
    | some kv =>
      rw [hp] at h
      simp only [Option.some_bind] at h
      cases has : kv.1.as_string with
      | none =>
        rw [has] at h
        simp at h
      | some k =>
        rw [has] at h
        cases hp2 : p kv.2 with
        | none =>
          rw [hp2] at h
          simp at h
        | some vv =>
          rw [hp2] at h
          simp only [Option.some_bind] at h
          exact ih vv.2 (insertSorted k vv.1 acc) m r (insertSorted_sorted acc hs) h

theorem deserialize_map_loop_eq_decodePairs (p : List Nat → Option (Value × List Nat)) :
    ∀ n bs acc, deserialize_map_loop p n bs acc =
      (decodePairs p n bs).map
        (fun q => (q.1.foldl (fun m kv => insertSorted kv.1 kv.2 m) acc, q.2)) := by
  intro n
  induction n with
  | zero =>
    intro bs acc
    rfl
  | succ n ih =>
    intro bs acc
    simp only [deserialize_map_loop, decodePairs]
    cases hp : p bs with
    | none => rfl
    | some kv =>
      simp only [Option.some_bind]
      cases has : kv.1.as_string with
      | none => rfl
      | some k =>
        cases hp2 : p kv.2 with
        | none => rfl
        | some vv =>
          simp only [Option.some_bind]
          rw [ih vv.2 (insertSorted k vv.1 acc)]
          cases decodePairs p n vv.2 with
          | none => rfl
          | some q => rfl

theorem decodePairs_length (p : List Nat → Option (Value × List Nat)) :
    ∀ n bs ps r, decodePairs p n bs = some (ps, r) → ps.length = n := by
  intro n
  induction n with
  | zero =>
    intro bs ps r h
    simp only [decodePairs, Option.some.injEq, Prod.mk.injEq] at h
    rw [← h.1]
    rfl
  | succ n ih =>
    intro bs ps r h
    simp only [decodePairs] at h
    cases hp : p bs with
    | none =>
      rw [hp] at h
      simp at h
    | some kv =>
      rw [hp] at h
      simp only [Option.some_bind] at h
      cases has : kv.1.as_string with
      | none =>
        rw [has] at h
        simp at h
      | some k =>
        rw [has] at h
        cases hp2 : p kv.2 with
        | none =>
          rw [hp2] at h
          simp at h
        | some vv =>
          rw [hp2] at h
          simp only [Option.some_bind] at h
          cases hdp : decodePairs p n vv.2 with
          | none =>
            rw [hdp] at h
            simp at h
          | some q =>
            rw [hdp] at h
            simp only [Option.map_some', Option.some.injEq, Prod.mk.injEq] at h
            rw [← h.1]
            simp [ih vv.2 q.1 q.2 (by rw [hdp])]

/-! Header-byte arithmetic. -/

theorem major_type_concat (mt n : Nat) (h : mt < 8) : major_type (concat mt n) = mt := by
  simp only [major_type, concat]
  omega

theorem additional_type_concat (mt n : Nat) : additional_type (concat mt n) = n % 32 := by
  simp only [additional_type, concat]
  omega

/-! Evaluation lemmas for headers and leaf items, used by the
round-trip proof. -/

theorem encode_unsigned_le23 {n : Nat} (mt : Nat) (h : n ≤ 23) :
    encode_unsigned n mt = some [concat mt n] := by
  simp [encode_unsigned, h]

theorem encode_unsigned_le255 {n : Nat} (mt : Nat) (h1 : 24 ≤ n) (h2 : n ≤ 255) :
    encode_unsigned n mt = some [concat mt 24, n] := by
  rw [encode_unsigned, if_neg (by omega), if_pos (by simp [MAX_U8]; omega),
    Nat.mod_eq_of_lt (by omega)]

theorem parse_value_succ (fuel hb : Nat) (tl : List Nat) :
    parse_value (fuel + 1) (hb :: tl) =
      (if major_type hb = 0 then deserialize_int (additional_type hb) tl
      else if major_type hb = 2 then deserialize_bytes (additional_type hb) tl
      else if major_type hb = 3 then deserialize_string (additional_type hb) tl
      else if major_type hb = 4 then
        deserialize_array (parse_value fuel) (additional_type hb) tl
      else if major_type hb = 5 then
        deserialize_map (parse_value fuel) (additional_type hb) tl
      else if major_type hb = 7 then deserialize_simple (additional_type hb) tl
      else none) := rfl

theorem parse_null (fuel : Nat) (rest : List Nat) :
    parse_value (fuel + 1) (246 :: rest) = some (.null, rest) := by
  simp [parse_value_succ, show major_type 246 = 7 from rfl,
    show additional_type 246 = 22 from rfl, deserialize_simple]

theorem parse_int_small {n : Nat} (fuel : Nat) (rest : List Nat) (h : n ≤ 23) :
    parse_value (fuel + 1) (n :: rest) = some (.int n, rest) := by
  have h1 : major_type n = 0 := by
    simp only [major_type]
    omega
  have h2 : additional_type n = n := by
    simp only [additional_type]
    omega
  simp [parse_value_succ, h1, h2, deserialize_int, h]

theorem parse_int_u8 (fuel b : Nat) (rest : List Nat) :
    parse_value (fuel + 1) (24 :: b :: rest) = some (.int b, rest) := by
  simp [parse_value_succ, show major_type 24 = 0 from rfl,
    show additional_type 24 = 24 from rfl, deserialize_int, read_u8, read_byte]

theorem parse_bytes_small {bs : List Nat} (fuel : Nat) (rest : List Nat)
    (h : bs.length ≤ 23) :
    parse_value (fuel + 1) (concat 2 bs.length :: (bs ++ rest)) = some (.bytes bs, rest) := by
  have h1 : major_type (concat 2 bs.length) = 2 := major_type_concat 2 _ (by omega)
  have h2 : additional_type (concat 2 bs.length) = bs.length := by
    rw [additional_type_concat]
    omega
  simp only [parse_value_succ, h1, h2]
  norm_num [deserialize_bytes, read_n_bytes, List.length_append]

theorem parse_str_small {s : List Nat} (fuel : Nat) (rest : List Nat)
    (h : s.length ≤ 23) (hu : validUtf8 s = true) :
    parse_value (fuel + 1) (concat 3 s.length :: (s ++ rest)) = some (.str s, rest) := by
  have h1 : major_type (concat 3 s.length) = 3 := major_type_concat 3 _ (by omega)
  have h2 : additional_type (concat 3 s.length) = s.length := by
    rw [additional_type_concat]
    omega
  simp only [parse_value_succ, h1, h2]
  norm_num [deserialize_string, read_n_bytes, List.length_append]
  simp [to_string, hu]

theorem value_sizeOf_pos (v : Value) : 0 < sizeOf v := by
  cases v <;> simp

theorem read_n_bytes_two (b1 b2 : Nat) (bs : List Nat) :
    read_n_bytes 2 (b1 :: b2 :: bs) = some ([b1, b2], bs) := by
  rw [read_n_bytes, if_pos (by simp)]
  rfl

theorem read_n_bytes_four (b1 b2 b3 b4 : Nat) (bs : List Nat) :
    read_n_bytes 4 (b1 :: b2 :: b3 :: b4 :: bs) = some ([b1, b2, b3, b4], bs) := by
  rw [read_n_bytes, if_pos (by simp)]
  rfl

theorem parseMany_int_small :
    ∀ (items : List Nat) (f : Nat) (rest : List Nat), (∀ b ∈ items, b ≤ 23) →
      parseMany (parse_value (f + 1)) items.length (items ++ rest) =
        some (items.map Value.int, rest) := by
  intro items
  induction items with
  | nil =>
    intro f rest _
    rfl
  | cons b t ih =>
    intro f rest hall
    simp only [List.length_cons, parseMany, List.cons_append]
    rw [parse_int_small f (t ++ rest) (hall b (by simp))]
    simp only [Option.some_bind]
    rw [ih f rest (fun x hx => hall x (by simp [hx]))]
    rfl

theorem parse_key97 (f : Nat) (rest : List Nat) :
    parse_value (f + 1) (97 :: 97 :: rest) = some (Value.str [97], rest) := by
  have hk := @parse_str_small [97] f rest (by decide) (by decide)
  simpa [concat] using hk

theorem deserialize_map_loop_const :
    ∀ (n f : Nat) (rest : List Nat) (acc : List (List Nat × Value)),
      deserialize_map_loop (parse_value (f + 1)) n
          ((List.replicate n ([97, 97, 0] : List Nat)).flatten ++ rest) acc =
        some ((List.replicate n (([97] : List Nat), Value.int 0)).foldl
          (fun m2 kv => insertSorted kv.1 kv.2 m2) acc, rest) := by
  intro n
  induction n with
  | zero =>
    intro f rest acc
    rfl
  | succ n ih =>
    intro f rest acc
    have hj : ((List.replicate (n + 1) ([97, 97, 0] : List Nat)).flatten ++ rest) =
        97 :: 97 :: 0 :: ((List.replicate n ([97, 97, 0] : List Nat)).flatten ++ rest) := by
      simp [List.replicate_succ]
    rw [hj]
    simp only [deserialize_map_loop]
    rw [parse_key97 f (0 :: ((List.replicate n ([97, 97, 0] : List Nat)).flatten ++ rest))]
    simp only [Option.some_bind, Value.as_string]
    rw [@parse_int_small 0 f ((List.replicate n ([97, 97, 0] : List Nat)).flatten ++ rest)
      (by decide)]
    simp only [Option.some_bind]
    rw [ih f rest (insertSorted [97] (Value.int 0) acc)]
    rw [List.replicate_succ, List.foldl_cons]

theorem foldl_insert_const_aux :
    ∀ m, (List.replicate m (([97] : List Nat), Value.int 0)).foldl
        (fun m2 kv => insertSorted kv.1 kv.2 m2) [([97], Value.int 0)] =
      [([97], Value.int 0)] := by
  intro m
  induction m with
  | zero => rfl
  | succ m ih =>
    simp only [List.replicate_succ, List.foldl_cons]
    rw [show insertSorted ([97] : List Nat) (Value.int 0) [([97], Value.int 0)] =
      [([97], Value.int 0)] from rfl]
    exact ih

theorem foldl_insert_const :
    ∀ n, (List.replicate (n + 1) (([97] : List Nat), Value.int 0)).foldl
        (fun m2 kv => insertSorted kv.1 kv.2 m2) [] = [([97], Value.int 0)] := by
  intro n
  simp only [List.replicate_succ, List.foldl_cons]
  rw [show insertSorted ([97] : List Nat) (Value.int 0) [] = [([97], Value.int 0)] from rfl]
  exact foldl_insert_const_aux n

/-- Any representable value serializes successfully, and parsing the
resulting bytes (with any sufficient fuel, in front of any trailing
bytes) returns exactly that value and the trailing bytes. -/
theorem serialize_parse :
    ∀ N v, sizeOf v ≤ N → representable v = true →
      ∃ out, serializeValue v = some out ∧
        ∀ fuel rest, out.length < fuel →
          parse_value fuel (out ++ rest) = some (v, rest) := by
  intro N
  induction N with
  | zero =>
    intro v hsz _
    have := value_sizeOf_pos v
    omega
  | succ N IH =>
    intro v hsz hrep
    cases v with
    | null =>
      refine ⟨[246], rfl, ?_⟩
      intro fuel rest hf
      cases fuel with
      | zero => omega
      | succ f => exact parse_null f rest
    | int n =>
      have hn : n ≤ 255 := by simpa [representable] using hrep
      by_cases h23 : n ≤ 23
      · refine ⟨[concat 0 n], ?_, ?_⟩
        · simp [serializeValue, encode_unsigned_le23 0 h23]
        · intro fuel rest hf
          cases fuel with
          | zero => omega
          | succ f =>
            have hc : concat 0 n = n := by
              simp only [concat]
              omega
            rw [hc]
            exact parse_int_small f rest h23
      · refine ⟨[concat 0 24, n], ?_, ?_⟩
        · simp [serializeValue, encode_unsigned_le255 0 (by omega) hn]
        · intro fuel rest hf
          cases fuel with
          | zero => omega
          | succ f => exact parse_int_u8 f n rest
    | bytes bs =>
      have hlen : bs.length ≤ 23 := by simpa [representable] using hrep
      refine ⟨concat 2 bs.length :: bs, ?_, ?_⟩
      · simp [serializeValue, encode_unsigned_le23 2 hlen]
      · intro fuel rest hf
        cases fuel with
        | zero => omega
        | succ f =>
          have h0 := parse_bytes_small f rest hlen
          simpa using h0
    | str s =>
      simp only [representable, Bool.and_eq_true, decide_eq_true_eq] at hrep
      obtain ⟨hlen, hu⟩ := hrep
      refine ⟨concat 3 s.length :: s, ?_, ?_⟩
      · simp [serializeValue, encode_unsigned_le23 3 hlen]
      · intro fuel rest hf
        cases fuel with
        | zero => omega
        | succ f =>
          have h0 := parse_str_small f rest hlen hu
          simpa using h0
    | array vs =>
      simp only [representable, Bool.and_eq_true, decide_eq_true_eq] at hrep
      obtain ⟨hlen, hrl⟩ := hrep
      have hszl : sizeOf vs ≤ N := by
        have hs : sizeOf (Value.array vs) = 1 + sizeOf vs := by simp
        omega
      have inner : ∀ vs2 : List Value, sizeOf vs2 ≤ N → representableList vs2 = true →
          ∃ body, serializeList vs2 = some body ∧
            ∀ f rest, body.length < f →
              parseMany (parse_value f) vs2.length (body ++ rest) = some (vs2, rest) := by
        intro vs2
        induction vs2 with
        | nil =>
          intro _ _
          exact ⟨[], rfl, fun f rest _ => by simp [parseMany]⟩
        | cons v2 t iht =>
          intro hsz2 hrep2
          simp only [representableList, Bool.and_eq_true] at hrep2
          have hcons : sizeOf (v2 :: t) = 1 + sizeOf v2 + sizeOf t := by simp
          have hpos2 := value_sizeOf_pos v2
          have hpost : (0 : Nat) < sizeOf t := by
            cases t <;> simp
          have hsv : sizeOf v2 ≤ N := by omega
          have hst : sizeOf t ≤ N := by omega
          obtain ⟨e, he, hpe⟩ := IH v2 hsv hrep2.1
          obtain ⟨body2, hb2, hpb2⟩ := iht hst hrep2.2
          refine ⟨e ++ body2, ?_, ?_⟩
          · simp [serializeList, he, hb2]
          · intro f rest hf
            simp only [List.length_append] at hf
            have hlf : e.length < f := by omega
            simp only [List.length_cons, parseMany, List.append_assoc]
            rw [hpe f (body2 ++ rest) hlf]
            simp only [Option.some_bind]
            rw [hpb2 f rest (by omega)]
            rfl
      obtain ⟨body, hbody, hpbody⟩ := inner vs hszl hrl
      refine ⟨concat 4 vs.length :: body, ?_, ?_⟩
      · simp [serializeValue, encode_unsigned_le23 4 hlen, hbody]
      · intro fuel rest hf
        cases fuel with
        | zero => omega
        | succ f =>
          have h1 : major_type (concat 4 vs.length) = 4 := major_type_concat 4 _ (by omega)
          have h2 : additional_type (concat 4 vs.length) = vs.length := by
            rw [additional_type_concat]
            omega
          simp only [List.cons_append, parse_value_succ, h1, h2]
          norm_num
          rw [deserialize_array, hpbody f rest (by simp at hf; omega)]
          rfl
    | map m =>
      simp only [representable, Bool.and_eq_true, decide_eq_true_eq] at hrep
      obtain ⟨⟨hlen, hsort⟩, hrp⟩ := hrep
      have hszl : sizeOf m ≤ N := by
        have hs : sizeOf (Value.map m) = 1 + sizeOf m := by simp
        omega
      have hsorted : List.Pairwise keyOrder m := (sortedKeysB_iff_pairwise m).mp hsort
      have inner : ∀ ps : List (List Nat × Value), sizeOf ps ≤ N →
          representablePairs ps = true →
          ∀ acc, List.Pairwise keyOrder (acc ++ ps) →
          ∃ body, serializePairs ps = some body ∧
            ∀ f rest, body.length < f →
              deserialize_map_loop (parse_value f) ps.length (body ++ rest) acc =
                some (acc ++ ps, rest) := by
        intro ps
        induction ps with
        | nil =>
          intro _ _ acc _
          exact ⟨[], rfl, fun f rest _ => by simp [deserialize_map_loop]⟩
        | cons q t iht =>
          intro hsz2 hrep2 acc hacc
          obtain ⟨k, v2⟩ := q
          simp only [representablePairs, Bool.and_eq_true, decide_eq_true_eq] at hrep2
          obtain ⟨⟨⟨hk23, hku⟩, hrv⟩, hrt⟩ := hrep2
          have hcons : sizeOf ((k, v2) :: t) = 1 + sizeOf (k, v2) + sizeOf t := by simp
          have hpair : sizeOf (k, v2) = 1 + sizeOf k + sizeOf v2 := by simp
          have hposv := value_sizeOf_pos v2
          have hpost : (0 : Nat) < sizeOf t := by
            cases t <;> simp
          have hsk : sizeOf (Value.str k) ≤ N := by
            have hs : sizeOf (Value.str k) = 1 + sizeOf k := by simp
            omega
          have hsv : sizeOf v2 ≤ N := by omega
          have hst : sizeOf t ≤ N := by omega
          have hrepk : representable (Value.str k) = true := by
            simp [representable, hk23, hku]
          obtain ⟨ke, hke, hpke⟩ := IH (Value.str k) hsk hrepk
          obtain ⟨ve, hve, hpve⟩ := IH v2 hsv hrv
          have hke2 : serializeValue (Value.str k) =
              some ([concat 3 k.length] ++ k) := by
            simp [serializeValue, encode_unsigned_le23 3 hk23]
          have hkeq : ke = [concat 3 k.length] ++ k := by
            rw [hke] at hke2
            exact Option.some.inj hke2
          have hacc2 : List.Pairwise keyOrder ((acc ++ [(k, v2)]) ++ t) := by
            rw [List.append_assoc]
            exact hacc
          obtain ⟨body2, hb2, hpb2⟩ := iht hst hrt (acc ++ [(k, v2)]) hacc2
          refine ⟨[concat 3 k.length] ++ k ++ ve ++ body2, ?_, ?_⟩
          · simp only [serializePairs, encode_unsigned_le23 3 hk23, Option.some_bind,
              hve, hb2, Option.map_some']
          · intro f rest hf
            simp only [List.length_append] at hf
            simp only [List.length_cons, deserialize_map_loop]
            have hstep1 : ([concat 3 k.length] ++ k ++ ve ++ body2) ++ rest =
                ([concat 3 k.length] ++ k) ++ (ve ++ (body2 ++ rest)) := by
              simp [List.append_assoc]
            rw [hstep1]
            rw [hkeq] at hpke
            rw [hpke f (ve ++ (body2 ++ rest)) (by simp at hf ⊢; omega)]
            simp only [Option.some_bind, Value.as_string]
            rw [hpve f (body2 ++ rest) (by simp at hf ⊢; omega)]
            simp only [Option.some_bind]
            have hall : ∀ q2 ∈ acc, keyLtB q2.1 k = true := by
              intro q2 hq2
              have := (List.pairwise_append.mp hacc).2.2 q2 hq2 (k, v2) (by simp)
              exact this
            rw [insertSorted_append acc hall]
            have hres := hpb2 f rest (by simp at hf ⊢; omega)
            rw [hres, List.append_assoc]
            rfl
      obtain ⟨body, hbody, hpbody⟩ := inner m hszl hrp [] (by simpa using hsorted)
      refine ⟨concat 5 m.length :: body, ?_, ?_⟩
      · simp [serializeValue, encode_unsigned_le23 5 hlen, hbody]
      · intro fuel rest hf
        cases fuel with
        | zero => omega
        | succ f =>
          have h1 : major_type (concat 5 m.length) = 5 := major_type_concat 5 _ (by omega)
          have h2 : additional_type (concat 5 m.length) = m.length := by
            rw [additional_type_concat]
            omega
          simp only [List.cons_append, parse_value_succ, h1, h2]
          norm_num
          rw [deserialize_map, hpbody f rest (by simp at hf; omega)]
          simp

/-- Round-trip on representable values: decoding the encoding gives
back the value. -/
theorem roundtrip_representable (v : Value) (hrep : representable v = true) :
    (to_bytes v).bind from_bytes = some v := by
  obtain ⟨out, hout, hparse⟩ := serialize_parse (sizeOf v) v (le_refl _) hrep
  rw [to_bytes, hout]
  simp only [Option.some_bind]
  rw [from_bytes]
  have hp := hparse (out.length + 1) [] (by omega)
  rw [List.append_nil] at hp
  rw [hp]
  rfl

/-! The claims. -/

/-- C1, counterexample: the round-trip claim fails as stated. The
representable value Bytes(24 zero bytes) — byte length 24, within the
claim's 0..=255 range — encodes to header bytes [0x58, 24] followed by
the payload, but the decoder treats the raw additional-type field 24
as the length instead of reading the follow-up length byte, so
decoding the encoding returns a different Bytes value (the length byte
24 swallowed into the payload). -/
theorem c1_counterexample :
    (to_bytes (Value.bytes (List.replicate 24 0))).bind from_bytes =
      some (Value.bytes (24 :: List.replicate 23 0)) ∧
    Value.bytes (24 :: List.replicate 23 0) ≠ Value.bytes (List.replicate 24 0) := by
  refine ⟨rfl, ?_⟩
  simp [List.replicate_succ]

/-- C1 (amended): decode(encode(v)) = v for every representable value
v, where representable now requires Int in 0..=255 and every
Bytes/String byte length and Array/Map element/pair count at most 23
(the single-byte immediate header form — the only length form the
decoder reads back for these major types), String payloads and Map
keys valid UTF-8, and Map entry lists with the BTreeMap sorted-key
invariant. -/
theorem c1_round_trip (v : Value) (hrep : representable v = true) :
    (to_bytes v).bind from_bytes = some v :=
  roundtrip_representable v hrep

/-- Witness for C1: a concrete nested representable value (a map with
two string keys, an int, and an inner array) round-trips. -/
theorem c1_round_trip_witness :
    representable (Value.map [([97], Value.int 200),
      ([98], Value.array [Value.null, Value.bytes [1, 2]])]) = true ∧
    (to_bytes (Value.map [([97], Value.int 200),
      ([98], Value.array [Value.null, Value.bytes [1, 2]])])).bind from_bytes =
      some (Value.map [([97], Value.int 200),
        ([98], Value.array [Value.null, Value.bytes [1, 2]])]) :=
  ⟨rfl, c1_round_trip _ rfl⟩

/-- C2, counterexample: the shared width-resolution rule fails as
stated. Header 0x58 (major type 2, additional-type 24) should — per
the claim — consume one follow-up byte (here 2) as the length and
yield Bytes([170, 187]); the code instead uses 24 itself as the
length, tries to read 24 bytes from the 3 remaining, and the decode
fails. -/
theorem c2_counterexample :
    from_bytes [88, 2, 170, 187] = none ∧
      from_bytes [88, 2, 170, 187] ≠ some (Value.bytes [170, 187]) := by
  refine ⟨rfl, ?_⟩
  intro h
  rw [show from_bytes [88, 2, 170, 187] = none from rfl] at h
  exact Option.noConfusion h

/-- C2 (amended): the 24/25/26 follow-up-byte rule (1/2/4 big-endian
bytes) is applied only for major type 0 (`deserialize_int`); for major
types 2, 3, 4 and 5 the decoder uses the raw 5-bit additional-type
value directly as the byte length, text length, element count or pair
count (even for field values 24..=31, with no follow-up bytes: the
byte and text strings take the next `len` bytes verbatim, an array
header with raw count `k` is followed by exactly `k` items, a map
header with raw count `k` by exactly `k` key/value item pairs), and
for major type 7 the raw additional-type is the simple-value code (so
additional-type 24 is fatal rather than a width marker). -/
theorem c2_width_rule_amended :
    ∀ (b1 b2 b3 b4 len n : Nat) (bs items : List Nat),
      deserialize_int 24 (b1 :: bs) = some (Value.int b1, bs) ∧
      deserialize_int 25 (b1 :: b2 :: bs) =
        some (Value.int (b1 % 256 * 256 + b2 % 256), bs) ∧
      deserialize_int 26 (b1 :: b2 :: b3 :: b4 :: bs) =
        some (Value.int
          (b1 % 256 * 16777216 + b2 % 256 * 65536 + b3 % 256 * 256 + b4 % 256), bs) ∧
      (len ≤ 31 → len ≤ bs.length →
        from_bytes (concat 2 len :: bs) = some (Value.bytes (bs.take len))) ∧
      (len ≤ 31 → len ≤ bs.length →
        from_bytes (concat 3 len :: bs) = to_string (bs.take len)) ∧
      (items.length ≤ 31 → (∀ b ∈ items, b ≤ 23) →
        from_bytes (concat 4 items.length :: items) =
          some (Value.array (items.map Value.int))) ∧
      (n + 1 ≤ 31 →
        from_bytes
            (concat 5 (n + 1) :: (List.replicate (n + 1) ([97, 97, 0] : List Nat)).flatten) =
          some (Value.map [([97], Value.int 0)])) ∧
      from_bytes (concat 7 24 :: bs) = none := by
  intro b1 b2 b3 b4 len n bs items
  refine ⟨rfl, ?_, ?_, ?_, ?_, ?_, ?_, ?_⟩
  · simp [deserialize_int, read_u16, read_n_bytes_two, u8_slice_to_u16]
  · simp [deserialize_int, read_u32, read_n_bytes_four, u8_slice_to_u32]
  · intro h31 hlen
    have hL : (concat 2 len :: bs).length + 1 = bs.length + 1 + 1 := by simp
    rw [from_bytes, hL, parse_value_succ]
    have h1 : major_type (concat 2 len) = 2 := major_type_concat 2 _ (by omega)
    have h2 : additional_type (concat 2 len) = len := by
      rw [additional_type_concat]
      omega
    have hrn : read_n_bytes len bs = some (bs.take len, bs.drop len) := by
      rw [read_n_bytes, if_pos hlen]
    simp [h1, h2, deserialize_bytes, hrn]
  · intro h31 hlen
    have hL : (concat 3 len :: bs).length + 1 = bs.length + 1 + 1 := by simp
    rw [from_bytes, hL, parse_value_succ]
    have h1 : major_type (concat 3 len) = 3 := major_type_concat 3 _ (by omega)
    have h2 : additional_type (concat 3 len) = len := by
      rw [additional_type_concat]
      omega
    have hrn : read_n_bytes len bs = some (bs.take len, bs.drop len) := by
      rw [read_n_bytes, if_pos hlen]
    cases hts : to_string (bs.take len) with
    | none => simp [h1, h2, deserialize_string, hrn, hts]
    | some v => simp [h1, h2, deserialize_string, hrn, hts]
  · intro h31 hall
    rw [from_bytes]
    simp only [List.length_cons]
    rw [parse_value_succ]
    have h1 : major_type (concat 4 items.length) = 4 := major_type_concat 4 _ (by omega)
    have h2 : additional_type (concat 4 items.length) = items.length := by
      rw [additional_type_concat]
      omega
    simp only [h1, h2]
    norm_num
    rw [deserialize_array]
    have hp := parseMany_int_small items items.length [] hall
    rw [List.append_nil] at hp
    rw [hp]
    exact ⟨[], rfl⟩
  · intro h31
    rw [from_bytes]
    simp only [List.length_cons]
    rw [parse_value_succ]
    have h1 : major_type (concat 5 (n + 1)) = 5 := major_type_concat 5 _ (by omega)
    have h2 : additional_type (concat 5 (n + 1)) = n + 1 := by
      rw [additional_type_concat]
      omega
    simp only [h1, h2]
    norm_num
    rw [deserialize_map]
    have hl := deserialize_map_loop_const (n + 1) ((n + 1) * 3) [] []
    rw [List.append_nil] at hl
    rw [hl, foldl_insert_const n]
    exact ⟨[], rfl⟩
  · have hL : (concat 7 24 :: bs).length + 1 = bs.length + 1 + 1 := by simp
    rw [from_bytes, hL, parse_value_succ]
    simp [show major_type (concat 7 24) = 7 from rfl,
      show additional_type (concat 7 24) = 24 from rfl, deserialize_simple]

/-- Witness for C2 (amended): the 2- and 4-byte integer forms, the
raw-length byte and text strings at length 2, a raw-count array of 25
small ints (additional-type 25 as a literal count), and a raw-count
map of 25 identical pairs (additional-type 25 as a literal pair
count). -/
theorem c2_width_rule_amended_witness :
    deserialize_int 25 [1, 0] = some (Value.int 256, []) ∧
      from_bytes (concat 2 2 :: [9, 9, 9]) = some (Value.bytes [9, 9]) ∧
      from_bytes (concat 3 2 :: [9, 9, 9]) = to_string ([9, 9, 9].take 2) ∧
      from_bytes (concat 4 (List.replicate 25 1).length :: List.replicate 25 1) =
        some (Value.array ((List.replicate 25 1).map Value.int)) ∧
      from_bytes
          (concat 5 (24 + 1) :: (List.replicate (24 + 1) ([97, 97, 0] : List Nat)).flatten) =
        some (Value.map [([97], Value.int 0)]) :=
  ⟨(c2_width_rule_amended 1 0 0 0 2 24 [] []).2.1,
    (c2_width_rule_amended 1 0 0 0 2 24 [9, 9, 9] []).2.2.2.1 (by omega) (by simp),
    (c2_width_rule_amended 1 0 0 0 2 24 [9, 9, 9] []).2.2.2.2.1 (by omega) (by simp),
    (c2_width_rule_amended 1 0 0 0 2 24 [] (List.replicate 25 1)).2.2.2.2.2.1
      (by rw [List.length_replicate]; omega)
      (fun b hb => by rw [List.eq_of_mem_replicate hb]; omega),
    (c2_width_rule_amended 1 0 0 0 2 24 [] []).2.2.2.2.2.2.1 (by omega)⟩

/-- C3: map canonicalization. Building a Map by inserting the same
key/value pairs in any two orders (with distinct keys) gives
byte-identical encodings; any map produced by the decoder's map loop
is sorted ascending by key; and a concrete map item whose wire order
is unsorted decodes to the sorted map. -/
theorem c3_map_canonicalization :
    ∀ (l1 l2 : List (List Nat × Value)) (p : List Nat → Option (Value × List Nat))
      (n : Nat) (bs : List Nat) (m : List (List Nat × Value)) (r : List Nat),
      (List.Perm l1 l2 → (l1.map Prod.fst).Nodup →
        to_bytes (Value.map (mapOfList l1)) = to_bytes (Value.map (mapOfList l2))) ∧
      (deserialize_map_loop p n bs [] = some (m, r) → List.Pairwise keyOrder m) ∧
      from_bytes [162, 97, 98, 2, 97, 97, 1] =
        some (Value.map [([97], Value.int 1), ([98], Value.int 2)]) := by
  intro l1 l2 p n bs m r
  refine ⟨?_, ?_, rfl⟩
  · intro hp hnd
    rw [mapOfList_eq_of_perm l1 l2 hp hnd]
  · intro h
    exact deserialize_map_loop_sorted p n bs [] m r List.Pairwise.nil h

/-- Witness for C3: the two-pair map built in either insertion order
encodes identically, and the trivial empty loop output is sorted. -/
theorem c3_map_canonicalization_witness :
    to_bytes (Value.map (mapOfList [([98], Value.int 2), ([97], Value.int 1)])) =
      to_bytes (Value.map (mapOfList [([97], Value.int 1), ([98], Value.int 2)])) ∧
    List.Pairwise keyOrder ([] : List (List Nat × Value)) :=
  ⟨(c3_map_canonicalization [([98], Value.int 2), ([97], Value.int 1)]
      [([97], Value.int 1), ([98], Value.int 2)] (fun _ => none) 0 [] [] []).1
      (List.Perm.swap _ _ _) (by decide),
    (c3_map_canonicalization [] [] (fun _ => none) 0 [] [] []).2.1 rfl⟩

/-- C4: `encode_unsigned` emits the minimal header form — exactly one
byte (major type concatenated with n) for n in 0..=23, and exactly two
bytes (major type concatenated with 24, then n as one byte) for n in
24..=255. -/
theorem c4_encode_unsigned_minimal :
    ∀ n mt : Nat,
      (n ≤ 23 → encode_unsigned n mt = some [concat mt n]) ∧
      (24 ≤ n → n ≤ 255 → encode_unsigned n mt = some [concat mt 24, n]) := by
  intro n mt
  exact ⟨fun h => encode_unsigned_le23 mt h,
    fun h1 h2 => encode_unsigned_le255 mt h1 h2⟩

/-- Witness for C4: the one-byte form at 5 and the two-byte form at 42. -/
theorem c4_encode_unsigned_minimal_witness :
    encode_unsigned 5 0 = some [concat 0 5] ∧
      encode_unsigned 42 0 = some [concat 0 24, 42] :=
  ⟨(c4_encode_unsigned_minimal 5 0).1 (by omega),
    (c4_encode_unsigned_minimal 42 0).2 (by omega) (by omega)⟩

/-- C5: for major type 0 the decoder reads multi-byte values
big-endian — decode([25, 1, 0]) is Int(256) and
decode([26, 1, 0, 0, 0]) is Int(16777216). -/
theorem c5_big_endian_ints :
    from_bytes [25, 1, 0] = some (Value.int 256) ∧
      from_bytes [26, 1, 0, 0, 0] = some (Value.int 16777216) :=
  ⟨rfl, rfl⟩

/-- C6: the encoder cannot represent any count or value above 255 —
`encode_unsigned` fails, and hence so does `to_bytes` on Int(v) with
v > 255 and on any Bytes/String/Array/Map whose length exceeds 255,
producing no output value. -/
theorem c6_encoder_unrepresentable :
    ∀ (n mt : Nat) (bs s : List Nat) (vs : List Value)
      (m : List (List Nat × Value)),
      (255 < n → encode_unsigned n mt = none ∧ to_bytes (Value.int n) = none) ∧
      (255 < bs.length → to_bytes (Value.bytes bs) = none) ∧
      (255 < s.length → to_bytes (Value.str s) = none) ∧
      (255 < vs.length → to_bytes (Value.array vs) = none) ∧
      (255 < m.length → to_bytes (Value.map m) = none) := by
  intro n mt bs s vs m
  have henc : ∀ j mt2 : Nat, 255 < j → encode_unsigned j mt2 = none := by
    intro j mt2 hj
    rw [encode_unsigned, if_neg (by omega), if_neg (by simp [MAX_U8]; omega)]
  refine ⟨fun h => ⟨henc n mt h, ?_⟩, fun h => ?_, fun h => ?_, fun h => ?_, fun h => ?_⟩
  · rw [to_bytes, serializeValue, henc n 0 h]
  · rw [to_bytes, serializeValue, henc bs.length 2 h]
    rfl
  · rw [to_bytes, serializeValue, henc s.length 3 h]
    rfl
  · rw [to_bytes, serializeValue, henc vs.length 4 h]
    rfl
  · rw [to_bytes, serializeValue, henc m.length 5 h]
    rfl

/-- Witness for C6: 256 is unencodable, as is a 256-byte byte string. -/
theorem c6_encoder_unrepresentable_witness :
    (encode_unsigned 256 0 = none ∧ to_bytes (Value.int 256) = none) ∧
      to_bytes (Value.bytes (List.replicate 256 0)) = none :=
  ⟨(c6_encoder_unrepresentable 256 0 [] [] [] []).1 (by omega),
    (c6_encoder_unrepresentable 256 0 (List.replicate 256 0) [] [] []).2.1
      (by rw [List.length_replicate]; omega)⟩

/-- C7: when a map item's key position decodes to any value other than
a String, the whole decode is fatal — the map loop (and with it the
entire decode call) returns nothing, with no partial Map; concretely,
a map whose single key is the integer 1 fails to decode. -/
theorem c7_invalid_map_key_fatal :
    ∀ (p : List Nat → Option (Value × List Nat)) (n : Nat)
      (bs : List Nat) (acc : List (List Nat × Value)) (v : Value) (rest : List Nat),
      (p bs = some (v, rest) → v.as_string = none →
        deserialize_map_loop p (n + 1) bs acc = none) ∧
      from_bytes [161, 1, 2] = none := by
  intro p n bs acc v rest
  refine ⟨?_, rfl⟩
  intro hp hs
  simp only [deserialize_map_loop, hp, Option.some_bind, hs]

/-- Witness for C7: a parser returning Int(0) in key position makes
the loop fail. -/
theorem c7_invalid_map_key_fatal_witness :
    deserialize_map_loop (fun l => some (Value.int 0, l)) 1 [] [] = none :=
  (c7_invalid_map_key_fatal (fun l => some (Value.int 0, l)) 0 [] [] (Value.int 0) []).1
    rfl rfl

/-- C8: a header byte with major type 1 or 6 makes the decode fatal
with no value; for major type 7, simple-value code 22 decodes to Null
and any other code is fatal. -/
theorem c8_major_type_dispatch :
    ∀ (hb : Nat) (bs : List Nat),
      ((major_type hb = 1 ∨ major_type hb = 6) → from_bytes (hb :: bs) = none) ∧
      (major_type hb = 7 → additional_type hb = 22 →
        from_bytes (hb :: bs) = some Value.null) ∧
      (major_type hb = 7 → additional_type hb ≠ 22 →
        from_bytes (hb :: bs) = none) := by
  intro hb bs
  have hL : (hb :: bs).length + 1 = bs.length + 1 + 1 := by simp
  refine ⟨?_, ?_, ?_⟩
  · intro h
    rw [from_bytes, hL, parse_value_succ]
    rcases h with h | h <;> simp [h]
  · intro h7 h22
    rw [from_bytes, hL, parse_value_succ]
    simp [h7, h22, deserialize_simple]
  · intro h7 hne
    rw [from_bytes, hL, parse_value_succ]
    simp [h7, deserialize_simple, hne]

/-- Witness for C8: header 32 (major type 1) fails, header 246
(major 7, code 22) is Null, header 247 (major 7, code 23) fails. -/
theorem c8_major_type_dispatch_witness :
    from_bytes [32] = none ∧ from_bytes [246] = some Value.null ∧
      from_bytes [247] = none :=
  ⟨(c8_major_type_dispatch 32 []).1 (Or.inl rfl),
    (c8_major_type_dispatch 246 []).2.1 rfl rfl,
    (c8_major_type_dispatch 247 []).2.2 rfl (by decide)⟩

/-- C9: on duplicate keys the decoded map binds each key to the value
of the last pair in wire order (the map loop's result is the left fold
of BTreeMap inserts over the wire pairs, and lookup in that fold is
the last binding), and the map can have fewer entries than the pair
count announced in the header (at most n, and concretely 1 entry for
an announced count of 2). -/
theorem c9_duplicate_keys :
    ∀ (p : List Nat → Option (Value × List Nat)) (n : Nat) (bs : List Nat)
      (ps : List (List Nat × Value)) (r : List Nat) (k : List Nat),
      (decodePairs p n bs = some (ps, r) →
        deserialize_map_loop p n bs [] = some (mapOfList ps, r) ∧
        mapLookup k (mapOfList ps) = lastBinding k ps ∧
        (mapOfList ps).length ≤ n) ∧
      from_bytes [162, 97, 97, 1, 97, 97, 2] =
        some (Value.map [([97], Value.int 2)]) := by
  intro p n bs ps r k
  refine ⟨?_, rfl⟩
  intro h
  refine ⟨?_, ?_, ?_⟩
  · rw [deserialize_map_loop_eq_decodePairs, h]
    rfl
  · rw [mapOfList, foldl_insert_lookup]
    cases lastBinding k ps with
    | none => rfl
    | some v => rfl
  · have hlen := decodePairs_length p n bs ps r h
    have h2 := foldl_insert_length ps []
    rw [mapOfList]
    simp only [List.length_nil, Nat.zero_add] at h2
    omega

/-- Witness for C9: the empty pair list. -/
theorem c9_duplicate_keys_witness :
    deserialize_map_loop (fun _ => none) 0 [] [] = some (mapOfList [], []) :=
  ((c9_duplicate_keys (fun _ => none) 0 [] [] [] []).1 rfl).1

/-- C10: both entry points are deterministic — any two results of
`to_bytes` on the same value are equal, and any two results of
`from_bytes` on the same bytes are equal (both are modelled as pure
functions of their input, mirroring the source's freedom from
nondeterministic inputs). -/
theorem c10_deterministic :
    ∀ (v : Value) (bs : List Nat) (o1 o2 : Option (List Nat)) (r1 r2 : Option Value),
      (to_bytes v = o1 → to_bytes v = o2 → o1 = o2) ∧
      (from_bytes bs = r1 → from_bytes bs = r2 → r1 = r2) := by
  intro v bs o1 o2 r1 r2
  exact ⟨fun h1 h2 => h1.symm.trans h2, fun h1 h2 => h1.symm.trans h2⟩

/-- Witness for C10: the Null value and its encoding. -/
theorem c10_deterministic_witness :
    (some [246] : Option (List Nat)) = some [246] ∧
      (some Value.null : Option Value) = some Value.null :=
  ⟨(c10_deterministic Value.null [246] (some [246]) (some [246])
      (some Value.null) (some Value.null)).1 rfl rfl,
    (c10_deterministic Value.null [246] (some [246]) (some [246])
      (some Value.null) (some Value.null)).2 rfl rfl⟩

end CborLite
